import Mathlib

/-!
# Verification of the NeuroDraw robust-prediction pipeline

Shallow embedding of the robust-prediction core of the repository:

* `NeuralNetwork.predict` / `NeuralNetwork.verify` / `NeuralNetwork.augmentInput`
  (model file, the copy containing the TTA code), and
* `App.getImageData` (main file, the 28x28 block-average normalizer).

JavaScript numbers are modelled by `ℚ` (every value the pipeline actually
manipulates is produced by finite arithmetic on inputs; IEEE rounding is
abstracted away, which each doc comment notes where it matters).  An
out-of-range JavaScript array read yields `undefined`; we model reads by
`List.getElem?` (`l[i]?`), where `none` plays the role of `undefined`, and the JS
comparison `undefined > x` is `false` (the `none` branch of the loops below
leaves the accumulator unchanged, exactly as the source's `if` does).
A `NaN` produced by `0 / 0` in the normalizer is modelled by `Option`:
`none` stands for `NaN`.

The classifier capability `window.nn` is modelled as an
`Option (List ℚ → List ℚ)` (`none` = capability absent), the `isLoaded`
flag as a `Bool`, and `Math.random()` as an injected stream `ℕ → ℚ` of
values drawn from `[0, 1)`.  Each classifier invocation is counted
explicitly (the returned `ℕ` component), making the "number of capability
calls" observable in the embedding.
-/

namespace NeuroDraw

/-- The index list scanned by the source's argmax loops
(`for (let i = 0; i < bound; i++)`). The `verify` loops use `bound = 100`
(source lines 244 and 257), `predict` uses `bound = 10` (line 204). -/
def argmaxScan (bound : ℕ) : List ℕ := List.range bound

/-- One iteration of the source's argmax loop body
`if (output[i] > maxProb) { maxProb = output[i]; prediction = i }`,
with the accumulator `(prediction, maxProb)`.  An out-of-range read
(`output[i]` is `undefined`) makes the comparison false, so the
accumulator is unchanged. -/
def argmaxStep (output : List ℚ) (acc : ℕ × ℚ) (i : ℕ) : ℕ × ℚ :=
  match output[i]? with
  | some v => if acc.2 < v then (i, v) else acc
  | none => acc

/-- The source's argmax loop: `let maxProb = 0; let prediction = 0;`
followed by the scan of `argmaxScan bound`. -/
def argmaxLoop (output : List ℚ) (bound : ℕ) : ℕ × ℚ :=
  (argmaxScan bound).foldl (argmaxStep output) (0, 0)

/-- Result shape of `NeuralNetwork.predict` (the fields the core contract
is about; the visualization-only `activations` field is out of scope). -/
structure PredictResult where
  prediction : ℕ
  confidence : ℚ
  probabilities : List ℚ
deriving DecidableEq

/-- Embedding of `NeuralNetwork.predict` (source lines 184-227), paired with the number
of classifier-capability invocations it performs.  If
`!this.isLoaded || !window.nn` it returns the default result with the
uniform `new Array(10).fill(0.1)` distribution and performs no call;
otherwise it calls `window.nn` once and argmaxes the output over `0..9`. -/
def predictC (isLoaded : Bool) (nn : Option (List ℚ → List ℚ))
    (input : List ℚ) : PredictResult × ℕ :=
  match isLoaded, nn with
  | true, some f =>
    let output := f input
    let r := argmaxLoop output 10
    ({ prediction := r.1, confidence := r.2, probabilities := output }, 1)
  | _, _ =>
    ({ prediction := 0, confidence := 0,
       probabilities := List.replicate 10 (1/10) }, 0)

/-- The offsets `(dx, dy)` generated by the nested loop at source lines
306-311: `dy` from `-1` to `1` outer, `dx` from `-1` to `1` inner,
skipping `(0, 0)`. -/
def shiftOffsets : List (ℤ × ℤ) :=
  [-1, 0, 1].flatMap fun dy =>
    [-1, 0, 1].filterMap fun dx =>
      if dx = 0 ∧ dy = 0 then none else some (dx, dy)

/-- Value written by the shift helper (source lines 288-300) at flat index
`n` of the output array.  The source's nested loop writes
`shifted[y*28+x] = inputData[(y+dy)*28 + (x+dx)]` for every
`(x, y) ∈ [0,28)²` with `(x+dx, y+dy)` inside the grid; each flat index
`n < 784` is written exactly once, at `(x, y) = (n % 28, n / 28)`, and all
other entries keep the `Float32Array` zero initialization.  Faithful for
inputs of length ≥ 784 (shorter inputs would store `NaN` from an
out-of-range read; a `FeatureVector` always has length 784). -/
def shiftAt (input : List ℚ) (dx dy : ℤ) (n : ℕ) : ℚ :=
  if n < 784 then
    let x : ℤ := (n % 28 : ℕ)
    let y : ℤ := (n / 28 : ℕ)
    if 0 ≤ x + dx ∧ x + dx < 28 ∧ 0 ≤ y + dy ∧ y + dy < 28 then
      input.getD ((y + dy) * 28 + (x + dx)).toNat 0
    else 0
  else 0

/-- The shift helper of `augmentInput`:
`new Float32Array(inputData.length)` filled by the nested loop. -/
def shift (input : List ℚ) (dx dy : ℤ) : List ℚ :=
  (List.range input.length).map (shiftAt input dx dy)

/-- The noise variant (source lines 314-320):
`inputData[i] + (Math.random() * 0.2 - 0.1)` clamped to `[0, 1]` by
`Math.max(0, Math.min(1, val))`; `rand i` is the `i`-th `Math.random()`
draw. -/
def noisy (input : List ℚ) (rand : ℕ → ℚ) : List ℚ :=
  (List.range input.length).map fun i =>
    max 0 (min 1 (input.getD i 0 + (rand i * (2/10) - 1/10)))

/-- Embedding of `NeuralNetwork.augmentInput` (source lines 280-323): the original,
the eight directional shifts in `shiftOffsets` order, then the noise
variant. -/
def augmentInput (input : List ℚ) (rand : ℕ → ℚ) : List (List ℚ) :=
  [input] ++ (shiftOffsets.map fun p => shift input p.1 p.2)
    ++ [noisy input rand]

/-- Result shape of `NeuralNetwork.verify`: the spread of the final
`predict` result with `prediction`/`confidence` overridden and
`isVerified` added. -/
structure VerifyResult where
  prediction : ℕ
  confidence : ℚ
  probabilities : List ℚ
  isVerified : Bool
deriving DecidableEq

/-- Body of `variations.forEach(...)` in `verify` (source lines 238-252):
when `window.nn` is present, classify the variant, argmax its output over
the scan range `0..99`, and increment `votes[prediction]` (also counting
the capability call); when absent, do nothing.  The accumulator is
`(votes, calls)`; votes are JS numbers, hence `ℚ`. -/
def voteStep (nn : Option (List ℚ → List ℚ)) (acc : List ℚ × ℕ)
    (data : List ℚ) : List ℚ × ℕ :=
  match nn with
  | some f =>
    let p := (argmaxLoop (f data) 100).1
    (acc.1.set p (acc.1.getD p 0 + 1), acc.2 + 1)
  | none => acc

/-- The vote tally of `verify`: `new Array(100).fill(0)` folded through
the per-variant loop, together with the classifier call count of that
loop. -/
def verifyVotes (nn : Option (List ℚ → List ℚ)) (rand : ℕ → ℚ)
    (input : List ℚ) : List ℚ × ℕ :=
  (augmentInput input rand).foldl (voteStep nn) (List.replicate 100 0, 0)

/-- Embedding of `NeuralNetwork.verify` (source lines 233-275), paired with its total
number of classifier-capability invocations: the voting loop over the 10
variants, the winner argmax over the 100 vote slots (scan `0..99`,
source lines 257-262), one final `this.predict(inputData)`, and the
result with `prediction := winner` and
`confidence := maxVotes / variations.length`. -/
def verify (isLoaded : Bool) (nn : Option (List ℚ → List ℚ))
    (rand : ℕ → ℚ) (input : List ℚ) : VerifyResult × ℕ :=
  let variations := augmentInput input rand
  let vc := verifyVotes nn rand input
  let w := argmaxLoop vc.1 100
  let pr := predictC isLoaded nn input
  ({ prediction := w.1,
     confidence := w.2 / (variations.length : ℚ),
     probabilities := pr.1.probabilities,
     isVerified := true }, vc.2 + pr.2)

/-- Pixel count of grid cell `(x, y)` in `App.getImageData` (main file,
lines 360-395):
`(endX - startX) * (endY - startY)` where
`startX = Math.floor(x * cellSize)`, `endX = Math.floor((x+1) * cellSize)`,
`cellSize = canvasSize / 28` — modelled by exact rational floors, i.e.
`ℕ` floor division `x * canvasSize / 28`.  The source's `count` variable
is incremented once per `(px, py)` pair, hence equals this product. -/
def cellCount (canvasSize x y : ℕ) : ℕ :=
  ((x + 1) * canvasSize / 28 - x * canvasSize / 28) *
    ((y + 1) * canvasSize / 28 - y * canvasSize / 28)

/-- Byte sum of grid cell `(x, y)` in `App.getImageData`: the source's
`sum` accumulated over `py ∈ [startY, endY)`, `px ∈ [startX, endX)` of
`data[(py * canvasSize + px) * 4]` (red channel of the 4-channel buffer).
`data` is the flat pixel buffer as a total function; all reads are
in range for a `canvasSize × canvasSize` buffer. -/
def cellSum (data : ℕ → ℚ) (canvasSize x y : ℕ) : ℚ :=
  ((List.range' (y * canvasSize / 28)
      ((y + 1) * canvasSize / 28 - y * canvasSize / 28)).map fun py =>
    ((List.range' (x * canvasSize / 28)
        ((x + 1) * canvasSize / 28 - x * canvasSize / 28)).map fun px =>
      data ((py * canvasSize + px) * 4)).sum).sum

/-- Embedding of `App.getImageData` (main file, lines 360-395): the 28×28 = 784-entry
result array, entry `n` at cell `(x, y) = (n % 28, n / 28)` holding
`(sum / count) / 255`.  When a cell is empty (`count = 0`, which happens
when `canvasSize < 28`) JavaScript computes `0 / 0 = NaN`; `none` models
that `NaN`. -/
def getImageData (data : ℕ → ℚ) (canvasSize : ℕ) : List (Option ℚ) :=
  (List.range (28 * 28)).map fun n =>
    let x := n % 28
    let y := n / 28
    if cellCount canvasSize x y = 0 then none
    else some (cellSum data canvasSize x y / (cellCount canvasSize x y : ℚ) / 255)

/-! ## Helper lemmas about the argmax loop -/

/-- Each loop step either leaves the accumulator unchanged or moves to
`(i, v)` where `v` is the in-range entry at `i` and `v` beats the running
maximum. -/
theorem argmaxStep_cases (l : List ℚ) (acc : ℕ × ℚ) (i : ℕ) :
    argmaxStep l acc i = acc ∨
      ∃ v, l[i]? = some v ∧ acc.2 < v ∧ argmaxStep l acc i = (i, v) := by
  unfold argmaxStep
  rcases h : l[i]? with _ | v
  · exact Or.inl rfl
  · by_cases hv : acc.2 < v
    · exact Or.inr ⟨v, rfl, hv, by simp [hv]⟩
    · simp [hv]

/-- Generic invariant preservation for folds of `argmaxStep`. -/
theorem foldl_argmaxStep_inv (l : List ℚ) (P : ℕ × ℚ → Prop)
    (idxs : List ℕ) (acc : ℕ × ℚ) (hacc : P acc)
    (hstep : ∀ a i, i ∈ idxs → P a → P (argmaxStep l a i)) :
    P (idxs.foldl (argmaxStep l) acc) := by
  induction idxs generalizing acc with
  | nil => exact hacc
  | cons i rest ih =>
    exact ih _ (hstep _ _ (List.mem_cons_self i rest) hacc)
      fun a k hk ha => hstep a k (List.mem_cons_of_mem i hk) ha

/-- The running maximum never goes below its `0` initialization. -/
theorem argmaxLoop_snd_nonneg (l : List ℚ) (b : ℕ) :
    0 ≤ (argmaxLoop l b).2 := by
  refine foldl_argmaxStep_inv l (fun a => 0 ≤ a.2) _ _ le_rfl ?_
  intro a i _ ha
  rcases argmaxStep_cases l a i with h | ⟨v, _, hv, h⟩
  · rw [h]; exact ha
  · rw [h]; exact le_of_lt (lt_of_le_of_lt ha hv)

/-- The selected index is an in-range index or the `0` initialization. -/
theorem argmaxLoop_fst_lt_or_zero (l : List ℚ) (b : ℕ) :
    (argmaxLoop l b).1 < l.length ∨ (argmaxLoop l b).1 = 0 := by
  refine foldl_argmaxStep_inv l (fun a => a.1 < l.length ∨ a.1 = 0) _ _
    (Or.inr rfl) ?_
  intro a i _ ha
  rcases argmaxStep_cases l a i with h | ⟨v, hv, _, h⟩
  · rw [h]; exact ha
  · rw [h]; exact Or.inl (List.getElem?_eq_some_iff.mp hv).1

/-- If every entry from index `m` on is ≤ 0, the selected index is below
`m` (for `0 < m`): the loop only ever moves to an index whose entry is
strictly positive. -/
theorem argmaxLoop_fst_lt_of_support (l : List ℚ) (b m : ℕ) (hm : 0 < m)
    (h : ∀ i, m ≤ i → l.getD i 0 ≤ 0) :
    (argmaxLoop l b).1 < m := by
  have main : (argmaxLoop l b).1 < m ∧ 0 ≤ (argmaxLoop l b).2 := by
    refine foldl_argmaxStep_inv l (fun a => a.1 < m ∧ 0 ≤ a.2) _ _
      ⟨hm, le_rfl⟩ ?_
    intro a i _ ha
    rcases argmaxStep_cases l a i with hc | ⟨v, hv, hlt, hc⟩
    · rw [hc]; exact ha
    · rw [hc]
      have hvpos : 0 < v := lt_of_le_of_lt ha.2 hlt
      have hgetD : l.getD i 0 = v := by
        rw [List.getD_eq_getElem?_getD, hv]; rfl
      constructor
      · by_contra him
        have := h i (le_of_not_lt him)
        rw [hgetD] at this
        exact absurd hvpos (not_lt_of_le this)
      · exact le_of_lt hvpos
  exact main.1

/-- Peeling the last scanned index off an argmax loop. -/
theorem argmaxLoop_succ (l : List ℚ) (b : ℕ) :
    argmaxLoop l (b + 1) = argmaxStep l (argmaxLoop l b) b := by
  unfold argmaxLoop argmaxScan
  rw [List.range_succ, List.foldl_append]
  rfl

/-- Provided the scan is nonempty, the list is nonempty and its head is
nonnegative, the returned running maximum is exactly the entry stored at
the returned index. -/
theorem argmaxLoop_snd_getD (l : List ℚ) (b : ℕ) (hb : 0 < b)
    (hl : 0 < l.length) (h0 : 0 ≤ l.getD 0 0) :
    (argmaxLoop l b).2 = l.getD (argmaxLoop l b).1 0 := by
  obtain ⟨b', rfl⟩ : ∃ b', b = b' + 1 := ⟨b - 1, (Nat.succ_pred_eq_of_pos hb).symm⟩
  have hrange : List.range (b' + 1) = 0 :: List.map (· + 1) (List.range b') :=
    List.range_succ_eq_map b'
  have h00 : l[0]? = some (l.getD 0 0) := by
    rw [List.getD_eq_getElem?_getD, List.getElem?_eq_getElem hl]; rfl
  have hfirst : argmaxStep l (0, 0) 0 = (0, l.getD 0 0) := by
    have hmatch : argmaxStep l (0, 0) 0 =
        if (0:ℚ) < l.getD 0 0 then (0, l.getD 0 0) else (0, 0) := by
      unfold argmaxStep
      rw [h00]
    rw [hmatch]
    rcases lt_or_eq_of_le h0 with hc | hc
    · rw [if_pos hc]
    · rw [if_neg (by rw [← hc]; exact lt_irrefl 0), ← hc]
  have : argmaxLoop l (b' + 1) =
      (List.map (· + 1) (List.range b')).foldl (argmaxStep l) (0, l.getD 0 0) := by
    unfold argmaxLoop argmaxScan
    rw [hrange]
    simp only [List.foldl_cons, hfirst]
  rw [this]
  refine foldl_argmaxStep_inv l (fun a => a.2 = l.getD a.1 0) _ _ rfl ?_
  intro a i _ ha
  rcases argmaxStep_cases l a i with hc | ⟨v, hv, _, hc⟩
  · rw [hc]; exact ha
  · rw [hc]
    simp only
    rw [List.getD_eq_getElem?_getD, hv]
    rfl

/-- The strict-`>` argmax loop selects the first index attaining the
maximum: if `i` is in range of list and scan, its entry is positive,
no entry exceeds it and every earlier entry is strictly smaller, the
loop returns `i`. -/
theorem argmaxLoop_first_max (l : List ℚ) (b i : ℕ)
    (hib : i < b) (hil : i < l.length)
    (hpos : 0 < l.getD i 0)
    (hmax : ∀ k, l.getD k 0 ≤ l.getD i 0)
    (hlt : ∀ k, k < i → l.getD k 0 < l.getD i 0) :
    (argmaxLoop l b).1 = i := by
  have hgetI : l[i]? = some (l.getD i 0) := by
    rw [List.getD_eq_getElem?_getD, List.getElem?_eq_getElem hil]; rfl
  have hsplit : List.range b = List.range i ++ List.range' i (b - i) := by
    rw [List.range_eq_range', List.range_eq_range']
    have := List.range'_append 0 i (b - i) 1
    simp only [Nat.one_mul, Nat.zero_add] at this
    rw [this]
    congr 1
    omega
  have hphase1 : ∀ a : ℕ × ℚ, a.2 < l.getD i 0 →
      ((List.range i).foldl (argmaxStep l) a).2 < l.getD i 0 := by
    intro a ha
    exact foldl_argmaxStep_inv l (fun a => a.2 < l.getD i 0) _ a ha
      (fun a k hk ha' => by
        rcases argmaxStep_cases l a k with hc | ⟨v, hv, _, hc⟩
        · rw [hc]; exact ha'
        · rw [hc]
          have : l.getD k 0 = v := by
            rw [List.getD_eq_getElem?_getD, hv]; rfl
          exact this ▸ hlt k (List.mem_range.mp hk))
  have hstep2 : ∀ a : ℕ × ℚ, a.2 < l.getD i 0 →
      argmaxStep l a i = (i, l.getD i 0) := by
    intro a ha
    have hmatch : argmaxStep l a i =
        if a.2 < l.getD i 0 then (i, l.getD i 0) else a := by
      unfold argmaxStep
      rw [hgetI]
    rw [hmatch, if_pos ha]
  have hphase3 : ∀ idxs : List ℕ,
      (idxs.foldl (argmaxStep l) (i, l.getD i 0)) = (i, l.getD i 0) := by
    intro idxs
    exact foldl_argmaxStep_inv l (fun a => a = (i, l.getD i 0)) idxs _ rfl
      (fun a k _ ha' => by
        rcases argmaxStep_cases l a k with hc | ⟨v, hv, hbeat, hc⟩
        · rw [hc]; exact ha'
        · exfalso
          have hkv : l.getD k 0 = v := by
            rw [List.getD_eq_getElem?_getD, hv]; rfl
          rw [ha'] at hbeat
          exact absurd (hkv ▸ hmax k) (not_le_of_lt hbeat))
  have hbsub : b - i = (b - i - 1) + 1 := by omega
  unfold argmaxLoop argmaxScan
  rw [hsplit, List.foldl_append, hbsub, List.range'_succ, List.foldl_cons,
    hstep2 _ (hphase1 (0, 0) hpos), hphase3]

/-! ## Helper lemmas about the voting fold -/

/-- With the capability absent, the voting fold does nothing. -/
theorem foldl_voteStep_none (l : List (List ℚ)) (acc : List ℚ × ℕ) :
    l.foldl (voteStep none) acc = acc := by
  induction l generalizing acc with
  | nil => rfl
  | cons d rest ih => exact ih acc

/-- With the capability present, the voting fold performs one classifier
call per variant. -/
theorem foldl_voteStep_count (f : List ℚ → List ℚ) (l : List (List ℚ)) :
    ∀ acc : List ℚ × ℕ,
      (l.foldl (voteStep (some f)) acc).2 = acc.2 + l.length := by
  induction l with
  | nil => intro acc; simp
  | cons d rest ih =>
    intro acc
    rw [List.foldl_cons, ih]
    simp only [voteStep, List.length_cons]
    omega

/-- The voting fold preserves the length of the tally. -/
theorem foldl_voteStep_length (nn : Option (List ℚ → List ℚ))
    (l : List (List ℚ)) : ∀ acc : List ℚ × ℕ,
      (l.foldl (voteStep nn) acc).1.length = acc.1.length := by
  induction l with
  | nil => intro acc; rfl
  | cons d rest ih =>
    intro acc
    rw [List.foldl_cons, ih]
    cases nn with
    | none => rfl
    | some f => simp [voteStep]

/-- Tally entries read through `getD` after a vote increment. -/
theorem getD_set_incr (votes : List ℚ) (p k : ℕ) :
    (votes.set p (votes.getD p 0 + 1)).getD k 0 = votes.getD k 0 ∨
      (votes.set p (votes.getD p 0 + 1)).getD k 0 = votes.getD k 0 + 1 := by
  by_cases hk : k = p
  · subst hk
    by_cases hlen : k < votes.length
    · right
      rw [List.getD_eq_getElem?_getD, List.getElem?_set_eq_of_lt _ hlen,
        Option.getD_some]
    · left
      rw [List.set_eq_of_length_le (le_of_not_lt hlen)]
  · left
    rw [List.getD_eq_getElem?_getD, List.getElem?_set_ne (Ne.symm hk),
      ← List.getD_eq_getElem?_getD]

/-- Entries not at the incremented slot are unchanged. -/
theorem getD_set_other (votes : List ℚ) (p k : ℕ) (x : ℚ) (hk : k ≠ p) :
    (votes.set p x).getD k 0 = votes.getD k 0 := by
  rw [List.getD_eq_getElem?_getD, List.getElem?_set_ne (Ne.symm hk),
    ← List.getD_eq_getElem?_getD]

/-- Every tally entry grows by at most the number of variants folded. -/
theorem foldl_voteStep_getD_le (nn : Option (List ℚ → List ℚ))
    (l : List (List ℚ)) : ∀ (acc : List ℚ × ℕ) (bound : ℚ),
      (∀ k, acc.1.getD k 0 ≤ bound) →
      ∀ k, ((l.foldl (voteStep nn) acc).1).getD k 0 ≤ bound + l.length := by
  induction l with
  | nil => intro acc bound hb k; simpa using hb k
  | cons d rest ih =>
    intro acc bound hb k
    rw [List.foldl_cons]
    have hstep : ∀ k, (voteStep nn acc d).1.getD k 0 ≤ bound + 1 := by
      intro k
      cases nn with
      | none => exact le_trans (hb k) (by linarith)
      | some f =>
        simp only [voteStep]
        rcases getD_set_incr acc.1 ((argmaxLoop (f d) 100).1) k with h | h
        · rw [h]; exact le_trans (hb k) (by linarith)
        · rw [h]; exact add_le_add_right (hb k) 1
    have := ih (voteStep nn acc d) (bound + 1) hstep k
    simp only [List.length_cons]
    push_cast
    linarith

/-- Every tally entry stays nonnegative. -/
theorem foldl_voteStep_getD_nonneg (nn : Option (List ℚ → List ℚ))
    (l : List (List ℚ)) : ∀ acc : List ℚ × ℕ,
      (∀ k, 0 ≤ acc.1.getD k 0) →
      ∀ k, 0 ≤ ((l.foldl (voteStep nn) acc).1).getD k 0 := by
  induction l with
  | nil => intro acc hb k; exact hb k
  | cons d rest ih =>
    intro acc hb k
    rw [List.foldl_cons]
    refine ih (voteStep nn acc d) ?_ k
    intro k'
    cases nn with
    | none => exact hb k'
    | some f =>
      simp only [voteStep]
      rcases getD_set_incr acc.1 ((argmaxLoop (f d) 100).1) k' with h | h
      · rw [h]; exact hb k'
      · rw [h]; linarith [hb k']

/-- The eight shift offsets, computed. -/
theorem shiftOffsets_eq :
    shiftOffsets = [(-1, -1), (0, -1), (1, -1), (-1, 0), (1, 0),
      (-1, 1), (0, 1), (1, 1)] := by
  decide

/-- The ensemble always has exactly 10 variants. -/
theorem augmentInput_length (input : List ℚ) (rand : ℕ → ℚ) :
    (augmentInput input rand).length = 10 := by
  simp [augmentInput, shiftOffsets_eq]

/-- The argmax of an all-zero list is `(0, 0)`: the strict comparison
never fires. -/
theorem argmaxLoop_replicate_zero (n b : ℕ) :
    argmaxLoop (List.replicate n (0:ℚ)) b = (0, 0) := by
  refine foldl_argmaxStep_inv _ (fun a => a = (0, 0)) _ _ rfl ?_
  intro a i _ ha
  rcases argmaxStep_cases _ a i with hc | ⟨v, hv, hlt, hc⟩
  · rw [hc]; exact ha
  · exfalso
    rw [List.getElem?_replicate] at hv
    have hv0 : v = 0 := by
      by_cases hi : i < n
      · rw [if_pos hi] at hv; exact (Option.some_injective _ hv).symm
      · rw [if_neg hi] at hv; exact absurd hv (Option.noConfusion)
    rw [ha, hv0] at hlt
    exact absurd hlt (lt_irrefl 0)

/-! ## The claims -/

/-- C1: the claim states that `verify`'s per-variant argmax loop and its
final vote-tally loop scan exactly the class-count range 0–9 and never
index the 10-entry `ClassDistribution` (or the tally) outside 0–9.  The
source code violates this: both loops scan `argmaxScan 100 = 0..99`
(source lines 244 and 257) and the vote array has 100 slots (line 235),
so index 10 — where a 10-entry distribution has no entry (the read is
out of bounds, `undefined` in JavaScript) — is visited, and the scanned
range is not the class-count range.  The spec itself flags this as a
source defect, so the code, not the claim, is wrong. -/
theorem C1_verify_scan_out_of_bounds :
    10 ∈ argmaxScan 100 ∧ (List.replicate 10 (0:ℚ))[10]? = none ∧
      argmaxScan 100 ≠ argmaxScan 10 := by
  decide

/-- C2 counterexample: with the classifier capability absent, `verify`
does not fail fast — it returns a result whose distribution is the
silent uniform default `Array(10).fill(0.1)`, and `predict` returns the
same default.  This is exactly the behavior the claim rules out. -/
theorem C2_counterexample :
    (verify false none (fun _ => 0) []).1.probabilities
        = List.replicate 10 (1/10) ∧
      (predictC false none []).1.probabilities = List.replicate 10 (1/10) := by
  constructor <;> rfl

/-- C2 amended: when the classifier capability is unavailable
(`window.nn` absent), `verify` does not fail and performs no classifier
call; it returns the degenerate result with prediction 0, confidence 0
and the uniform default distribution coming from `predict`'s fallback
branch, and `predict` likewise returns that default instead of an
error. -/
theorem C2_unavailable_default (isLoaded : Bool) (rand : ℕ → ℚ)
    (input : List ℚ) :
    verify isLoaded none rand input =
      ({ prediction := 0, confidence := 0,
         probabilities := List.replicate 10 (1/10), isVerified := true }, 0) ∧
    predictC isLoaded none input =
      ({ prediction := 0, confidence := 0,
         probabilities := List.replicate 10 (1/10) }, 0) := by
  have hpred : predictC isLoaded none input =
      ({ prediction := 0, confidence := 0,
         probabilities := List.replicate 10 (1/10) }, 0) := by
    cases isLoaded <;> rfl
  have hvotes : verifyVotes none rand input = (List.replicate 100 0, 0) :=
    foldl_voteStep_none _ _
  constructor
  · simp only [verify, hvotes, hpred, argmaxLoop_replicate_zero]
    norm_num
  · exact hpred

/-- C3 counterexample: the claim bounds `verify`'s classifier
invocations by 10, but a `verify` call with the capability available
performs 11 invocations: 10 for the ensemble variants plus one more
inside the final `this.predict(inputData)` call (source line 266). -/
theorem C3_counterexample :
    (verify true (some fun _ => List.replicate 10 (0:ℚ)) (fun _ => 0) []).2
        = 11 ∧
      ¬ ((verify true (some fun _ => List.replicate 10 (0:ℚ))
          (fun _ => 0) []).2 ≤ 10) := by
  decide

/-- C3 amended: with the capability available, one `verify` invocation
invokes the classifier exactly 11 times (once per ensemble variant plus
once in the final `predict`), one `predict` invocation invokes it
exactly once, and with the capability absent neither performs any
invocation. -/
theorem C3_call_counts (f : List ℚ → List ℚ) (rand : ℕ → ℚ)
    (input : List ℚ) (isLoaded : Bool) :
    (verify true (some f) rand input).2 = 11 ∧
    (predictC true (some f) input).2 = 1 ∧
    (verify isLoaded none rand input).2 = 0 ∧
    (predictC isLoaded none input).2 = 0 := by
  refine ⟨?_, rfl, ?_, ?_⟩
  · have hc : (verifyVotes (some f) rand input).2 = 10 := by
      unfold verifyVotes
      rw [foldl_voteStep_count, augmentInput_length]
    simp only [verify, hc, predictC]
  · have hvotes : verifyVotes none rand input = (List.replicate 100 0, 0) :=
      foldl_voteStep_none _ _
    have hpred : (predictC isLoaded none input).2 = 0 := by
      cases isLoaded <;> rfl
    simp only [verify, hvotes, hpred]
  · cases isLoaded <;> rfl

/-- If every in-range entry is ≤ 0, the strict argmax never updates. -/
theorem argmaxLoop_of_nonpos (l : List ℚ) (b : ℕ)
    (h : ∀ k, k < l.length → l.getD k 0 ≤ 0) :
    argmaxLoop l b = (0, 0) := by
  refine foldl_argmaxStep_inv _ (fun a => a = (0, 0)) _ _ rfl ?_
  intro a i _ ha
  rcases argmaxStep_cases _ a i with hc | ⟨v, hv, hlt, hc⟩
  · rw [hc]; exact ha
  · exfalso
    have hil : i < l.length := (List.getElem?_eq_some_iff.mp hv).1
    have hgd : l.getD i 0 = v := by
      rw [List.getD_eq_getElem?_getD, hv]; rfl
    rw [ha] at hlt
    exact absurd (lt_of_lt_of_le hlt (hgd ▸ h i hil)) (lt_irrefl 0)

/-- Every `getD`-read of the all-zero tally is zero. -/
theorem replicate_getD_zero (n k : ℕ) :
    (List.replicate n (0:ℚ)).getD k 0 = 0 := by
  rw [List.getD_eq_getElem?_getD, List.getElem?_replicate]
  split <;> rfl

/-- The vote slots at indices ≥ 10 are never incremented when every
classifier output has exactly 10 entries: each per-variant vote lands in
0–9. -/
theorem foldl_voteStep_high_zero (f : List ℚ → List ℚ)
    (hf : ∀ v, (f v).length = 10) (l : List (List ℚ)) :
    ∀ acc : List ℚ × ℕ,
      (∀ k, 10 ≤ k → acc.1.getD k 0 = 0) →
      ∀ k, 10 ≤ k → ((l.foldl (voteStep (some f)) acc).1).getD k 0 = 0 := by
  induction l with
  | nil => intro acc h k hk; exact h k hk
  | cons d rest ih =>
    intro acc h k hk
    rw [List.foldl_cons]
    refine ih _ ?_ k hk
    intro k' hk'
    simp only [voteStep]
    have hp : (argmaxLoop (f d) 100).1 < 10 := by
      rcases argmaxLoop_fst_lt_or_zero (f d) 100 with h' | h'
      · rwa [hf d] at h'
      · omega
    rw [getD_set_other _ _ _ _ (by omega)]
    exact h k' hk'

/-- C4: the consensus confidence returned by `verify` equals the vote
tally of the winning class divided by the ensemble size 10, and always
lies in [0, 1] — for every input vector, classifier capability, loaded
flag and randomness stream. -/
theorem C4_consensus_confidence (isLoaded : Bool)
    (nn : Option (List ℚ → List ℚ)) (rand : ℕ → ℚ) (input : List ℚ) :
    (verify isLoaded nn rand input).1.confidence =
      (verifyVotes nn rand input).1.getD
        ((verify isLoaded nn rand input).1.prediction) 0 / 10 ∧
    0 ≤ (verify isLoaded nn rand input).1.confidence ∧
    (verify isLoaded nn rand input).1.confidence ≤ 1 := by
  have hlen : (verifyVotes nn rand input).1.length = 100 := by
    unfold verifyVotes
    rw [foldl_voteStep_length]
    simp
  have hnonneg : ∀ k, 0 ≤ (verifyVotes nn rand input).1.getD k 0 := by
    intro k
    unfold verifyVotes
    exact foldl_voteStep_getD_nonneg nn _ _
      (fun k' => le_of_eq (replicate_getD_zero 100 k').symm) k
  have hle : ∀ k, (verifyVotes nn rand input).1.getD k 0 ≤ 10 := by
    intro k
    unfold verifyVotes
    have := foldl_voteStep_getD_le nn (augmentInput input rand)
      (List.replicate 100 0, 0) 0
      (fun k' => le_of_eq (replicate_getD_zero 100 k')) k
    rw [augmentInput_length] at this
    simpa using this
  have hsnd : (argmaxLoop (verifyVotes nn rand input).1 100).2 =
      (verifyVotes nn rand input).1.getD
        ((argmaxLoop (verifyVotes nn rand input).1 100).1) 0 :=
    argmaxLoop_snd_getD _ 100 (by norm_num) (by rw [hlen]; norm_num)
      (hnonneg 0)
  have hconf : (verify isLoaded nn rand input).1.confidence =
      (argmaxLoop (verifyVotes nn rand input).1 100).2 / 10 := by
    simp only [verify, augmentInput_length]
    norm_num
  have hpred : (verify isLoaded nn rand input).1.prediction =
      (argmaxLoop (verifyVotes nn rand input).1 100).1 := by
    simp only [verify]
  refine ⟨?_, ?_, ?_⟩
  · rw [hconf, hsnd, hpred]
  · rw [hconf, hsnd]
    exact div_nonneg (hnonneg _) (by norm_num)
  · rw [hconf, hsnd, div_le_one (by norm_num)]
    exact hle _

/-- C5: the strict-`>` argmax used by both of `verify`'s loops resolves
ties toward the lowest index: for any distribution or tally (nonnegative
entries, at most the 100 scanned slots), if `i < j` hold equal maximal
entries and `i` is the first index attaining the maximum, the loop
returns `i` (not `j`); and the all-zero 10-entry distribution yields
class 0. -/
theorem C5_argmax_tiebreak :
    (∀ (l : List ℚ) (i j : ℕ), l.length ≤ 100 →
      (∀ k, k < l.length → 0 ≤ l.getD k 0) →
      i < j → j < l.length → l.getD j 0 = l.getD i 0 →
      (∀ k, k < l.length → l.getD k 0 ≤ l.getD i 0) →
      (∀ k, k < i → l.getD k 0 < l.getD i 0) →
      (argmaxLoop l 100).1 = i) ∧
    (argmaxLoop (List.replicate 10 (0:ℚ)) 100).1 = 0 := by
  constructor
  · intro l i j hl100 hnn hij hjl hji hmax hfirst
    have hil : i < l.length := lt_trans hij hjl
    by_cases hpos : 0 < l.getD i 0
    · refine argmaxLoop_first_max l 100 i (by omega) hil hpos ?_ hfirst
      intro k
      by_cases hk : k < l.length
      · exact hmax k hk
      · rw [List.getD_eq_default l 0 (le_of_not_lt hk)]
        exact le_of_lt hpos
    · have hzero : l.getD i 0 = 0 :=
        le_antisymm (le_of_not_lt hpos) (hnn i hil)
      have hi0 : i = 0 := by
        by_contra hne
        have := hfirst 0 (Nat.pos_of_ne_zero hne)
        have h00 := hnn 0 (by omega)
        rw [hzero] at this
        exact absurd (lt_of_le_of_lt h00 this) (lt_irrefl 0)
      subst hi0
      have : argmaxLoop l 100 = (0, 0) := by
        refine argmaxLoop_of_nonpos l 100 ?_
        intro k hk
        have := hmax k hk
        rw [hzero] at this
        exact this
      rw [this]
  · rw [argmaxLoop_replicate_zero]

/-- C5 witness: on the distribution `[0, 3, 3, 0, …, 0]` the equal
maximal entries sit at indices 1 < 2 and the loop returns 1. -/
theorem C5_witness :
    (argmaxLoop [0, 3, 3, 0, 0, 0, 0, 0, 0, 0] 100).1 = 1 :=
  C5_argmax_tiebreak.1 [0, 3, 3, 0, 0, 0, 0, 0, 0, 0] 1 2
    (by norm_num) (by decide) (by norm_num) (by norm_num) (by decide)
    (by decide) (by decide)

/-- C10: assuming the classifier capability returns a distribution of
exactly 10 entries for every query, `verify`'s winning class and
`predict`'s prediction lie in [0, 9], because vote slots 10–99 are never
incremented and can therefore never win the final tally scan. -/
theorem C10_winning_class_range (f : List ℚ → List ℚ) (rand : ℕ → ℚ)
    (input : List ℚ) (isLoaded : Bool)
    (hf : ∀ v, (f v).length = 10) :
    (verify isLoaded (some f) rand input).1.prediction ≤ 9 ∧
    (predictC true (some f) input).1.prediction ≤ 9 ∧
    (∀ k, 10 ≤ k → (verifyVotes (some f) rand input).1.getD k 0 = 0) := by
  have hhigh : ∀ k, 10 ≤ k →
      (verifyVotes (some f) rand input).1.getD k 0 = 0 := by
    intro k hk
    unfold verifyVotes
    exact foldl_voteStep_high_zero f hf _ _
      (fun k' _ => replicate_getD_zero 100 k') k hk
  refine ⟨?_, ?_, hhigh⟩
  · have hwin : (argmaxLoop (verifyVotes (some f) rand input).1 100).1 < 10 :=
      argmaxLoop_fst_lt_of_support _ 100 10 (by norm_num)
        (fun i hi => le_of_eq (hhigh i hi))
    have : (verify isLoaded (some f) rand input).1.prediction =
        (argmaxLoop (verifyVotes (some f) rand input).1 100).1 := by
      simp only [verify]
    omega
  · have : (predictC true (some f) input).1.prediction =
        (argmaxLoop (f input) 10).1 := by
      simp only [predictC]
    rcases argmaxLoop_fst_lt_or_zero (f input) 10 with h | h
    · rw [hf input] at h; omega
    · omega

/-- C10 witness: a constant all-zero 10-entry classifier satisfies the
length contract, and the bounds hold at a concrete call. -/
theorem C10_witness :
    (verify true (some fun _ => List.replicate 10 (0:ℚ))
        (fun _ => 0) []).1.prediction ≤ 9 ∧
    (predictC true (some fun _ => List.replicate 10 (0:ℚ))
        []).1.prediction ≤ 9 ∧
    (∀ k, 10 ≤ k → (verifyVotes (some fun _ => List.replicate 10 (0:ℚ))
        (fun _ => 0) []).1.getD k 0 = 0) :=
  C10_winning_class_range _ _ _ _ (fun _ => by simp)

/-- Reading a mapped index range at an in-range position. -/
theorem getD_map_range {α : Type} (f : ℕ → α) (d : α) (n i : ℕ)
    (hi : i < n) : ((List.range n).map f).getD i d = f i := by
  rw [List.getD_eq_getElem?_getD]
  simp [List.getElem?_map, List.getElem?_range, hi]

/-- A shift never changes the array length. -/
theorem shift_length (v : List ℚ) (dx dy : ℤ) :
    (shift v dx dy).length = v.length := by
  simp [shift]

/-- Pointwise reading of a shifted 784-vector at grid coordinate
`(x, y)`: the destination receives the source value at `(x+dx, y+dy)`
when that coordinate is inside the 28×28 grid, and zero otherwise. -/
theorem shift_getD_xy (v : List ℚ) (hv : v.length = 784) (dx dy : ℤ)
    (x y : ℕ) (hx : x < 28) (hy : y < 28) :
    (shift v dx dy).getD (y * 28 + x) 0 =
      if 0 ≤ (x:ℤ) + dx ∧ (x:ℤ) + dx < 28 ∧ 0 ≤ (y:ℤ) + dy ∧ (y:ℤ) + dy < 28
      then v.getD ((((y:ℤ) + dy) * 28 + ((x:ℤ) + dx))).toNat 0 else 0 := by
  have hn : y * 28 + x < v.length := by omega
  unfold shift
  rw [getD_map_range _ _ _ _ hn]
  unfold shiftAt
  have h784 : y * 28 + x < 784 := by omega
  rw [if_pos h784]
  have h1 : (y * 28 + x) % 28 = x := by omega
  have h2 : (y * 28 + x) / 28 = y := by omega
  rw [h1, h2]

/-- Pointwise reading of the noise variant. -/
theorem noisy_getD (v : List ℚ) (r : ℕ → ℚ) (i : ℕ) (hi : i < v.length) :
    (noisy v r).getD i 0 =
      max 0 (min 1 (v.getD i 0 + (r i * (2/10) - 1/10))) := by
  unfold noisy
  rw [getD_map_range _ _ _ _ hi]

/-- The tenth ensemble element is the noise variant. -/
theorem augmentInput_getD_nine (v : List ℚ) (r : ℕ → ℚ) :
    (augmentInput v r).getD 9 [] = noisy v r := by
  simp [augmentInput, shiftOffsets_eq]

/-- C6: `augmentInput` returns exactly 10 variants; variant 0 is the
input itself; every element of variant 9 is the input element plus a
noise term of magnitude at most 0.1, clamped to [0, 1] — assuming each
`Math.random()` draw lies in `[0, 1)`. -/
theorem C6_augment_shape (v : List ℚ) (r : ℕ → ℚ)
    (hr : ∀ i, 0 ≤ r i ∧ r i < 1) :
    (augmentInput v r).length = 10 ∧
    (augmentInput v r).getD 0 [] = v ∧
    (∀ i, i < v.length →
      ((augmentInput v r).getD 9 []).getD i 0 =
        max 0 (min 1 (v.getD i 0 + (r i * (2/10) - 1/10))) ∧
      |(v.getD i 0 + (r i * (2/10) - 1/10)) - v.getD i 0| ≤ 1/10 ∧
      0 ≤ ((augmentInput v r).getD 9 []).getD i 0 ∧
      ((augmentInput v r).getD 9 []).getD i 0 ≤ 1) := by
  refine ⟨augmentInput_length v r, rfl, ?_⟩
  intro i hi
  rw [augmentInput_getD_nine, noisy_getD v r i hi]
  refine ⟨rfl, ?_, le_max_left _ _, max_le (by norm_num) (min_le_left _ _)⟩
  have h1 := (hr i).1
  have h2 := (hr i).2
  rw [add_sub_cancel_left, abs_le]
  constructor <;> linarith

/-- C6 witness: a concrete 784-vector and a constant in-range random
stream. -/
theorem C6_witness :
    (augmentInput (List.replicate 784 (1/2:ℚ)) (fun _ => 1/2)).length = 10 ∧
    (augmentInput (List.replicate 784 (1/2:ℚ)) (fun _ => 1/2)).getD 0 []
        = List.replicate 784 (1/2:ℚ) ∧
    (∀ i, i < (List.replicate 784 (1/2:ℚ)).length →
      ((augmentInput (List.replicate 784 (1/2:ℚ))
          (fun _ => 1/2)).getD 9 []).getD i 0 =
        max 0 (min 1 ((List.replicate 784 (1/2:ℚ)).getD i 0 +
          ((fun _ => (1/2:ℚ)) i * (2/10) - 1/10))) ∧
      |((List.replicate 784 (1/2:ℚ)).getD i 0 +
          ((fun _ => (1/2:ℚ)) i * (2/10) - 1/10)) -
        (List.replicate 784 (1/2:ℚ)).getD i 0| ≤ 1/10 ∧
      0 ≤ ((augmentInput (List.replicate 784 (1/2:ℚ))
          (fun _ => 1/2)).getD 9 []).getD i 0 ∧
      ((augmentInput (List.replicate 784 (1/2:ℚ))
          (fun _ => 1/2)).getD 9 []).getD i 0 ≤ 1) :=
  C6_augment_shape (List.replicate 784 (1/2)) (fun _ => 1/2)
    (fun _ => by norm_num)

/-- C7: the eight shift variants are generated for the offsets
`(dx, dy) ∈ {-1,0,1}² \ {(0,0)}` in row-major `(dy, dx)` ascending
order, and a shift by `(dx, dy)` puts at destination `(x, y)` the source
value at `(x+dx, y+dy)` when that lies in the 28×28 grid and zero
otherwise (no wrap-around). -/
theorem C7_shift_variants (v : List ℚ) (r : ℕ → ℚ) (hv : v.length = 784) :
    shiftOffsets = [(-1, -1), (0, -1), (1, -1), (-1, 0), (1, 0),
      (-1, 1), (0, 1), (1, 1)] ∧
    (∀ j, j < 8 → (augmentInput v r).getD (j+1) [] =
      shift v (shiftOffsets.getD j (0, 0)).1 (shiftOffsets.getD j (0, 0)).2) ∧
    (∀ dx dy : ℤ, ∀ x y : ℕ, x < 28 → y < 28 →
      (shift v dx dy).getD (y * 28 + x) 0 =
        if 0 ≤ (x:ℤ) + dx ∧ (x:ℤ) + dx < 28 ∧
            0 ≤ (y:ℤ) + dy ∧ (y:ℤ) + dy < 28
        then v.getD ((((y:ℤ) + dy) * 28 + ((x:ℤ) + dx))).toNat 0 else 0) := by
  refine ⟨shiftOffsets_eq, ?_, ?_⟩
  · have hlist : augmentInput v r =
        v :: shift v (-1) (-1) :: shift v 0 (-1) :: shift v 1 (-1) ::
        shift v (-1) 0 :: shift v 1 0 :: shift v (-1) 1 :: shift v 0 1 ::
        shift v 1 1 :: [noisy v r] := by
      unfold augmentInput
      rw [shiftOffsets_eq]
      rfl
    intro j hj
    rw [hlist, shiftOffsets_eq]
    interval_cases j <;> rfl
  · intro dx dy x y hx hy
    exact shift_getD_xy v hv dx dy x y hx hy

/-- C7 witness: the shift semantics at a concrete vector and
coordinate. -/
theorem C7_witness :
    shiftOffsets = [(-1, -1), (0, -1), (1, -1), (-1, 0), (1, 0),
      (-1, 1), (0, 1), (1, 1)] ∧
    (∀ j, j < 8 →
      (augmentInput (List.replicate 784 (0:ℚ)) (fun _ => 0)).getD (j+1) [] =
      shift (List.replicate 784 (0:ℚ)) (shiftOffsets.getD j (0, 0)).1
        (shiftOffsets.getD j (0, 0)).2) ∧
    (∀ dx dy : ℤ, ∀ x y : ℕ, x < 28 → y < 28 →
      (shift (List.replicate 784 (0:ℚ)) dx dy).getD (y * 28 + x) 0 =
        if 0 ≤ (x:ℤ) + dx ∧ (x:ℤ) + dx < 28 ∧
            0 ≤ (y:ℤ) + dy ∧ (y:ℤ) + dy < 28
        then (List.replicate 784 (0:ℚ)).getD
          ((((y:ℤ) + dy) * 28 + ((x:ℤ) + dx))).toNat 0 else 0) :=
  C7_shift_variants (List.replicate 784 0) (fun _ => 0)
    (List.length_replicate 784 0)

set_option maxRecDepth 4000 in
/-- C8 counterexample: take the all-ones 784-vector and `(dx, dy) =
(1, 0)`.  The first shift zero-fills exactly the column `x = 27`
(conjuncts 4: the cell `(27, 0)` is zero after the first shift, and 1:
the cell `(0, 0)` is not).  The claim therefore asserts that the
round-trip reproduces the original at `(0, 0)` and stays zero at
`(27, 0)`; in fact the round-trip is zero at `(0, 0)` (≠ the original 1)
and is 1 at `(27, 0)` (≠ 0): the zeroed cells are on the opposite
border from the ones the first shift zero-filled. -/
theorem C8_counterexample :
    (shift (List.replicate 784 (1:ℚ)) 1 0).getD 0 0 = 1 ∧
    (shift (shift (List.replicate 784 (1:ℚ)) 1 0) (-1) 0).getD 0 0 = 0 ∧
    (List.replicate 784 (1:ℚ)).getD 0 0 = 1 ∧
    (shift (List.replicate 784 (1:ℚ)) 1 0).getD 27 0 = 0 ∧
    (shift (shift (List.replicate 784 (1:ℚ)) 1 0) (-1) 0).getD 27 0 = 1 := by
  refine ⟨?_, ?_, ?_, ?_, ?_⟩ <;> decide

/-- C8 amended: shifting by `(dx, dy)` and then by `(-dx, -dy)`
reproduces the original at exactly the grid positions `(x, y)` whose
content survived the first shift, i.e. those with `(x-dx, y-dy)` still
inside the grid; the remaining border cells — the cells whose content
the first shift pushed off the grid (equivalently, the cells the
second shift zero-fills) — are zero. -/
theorem C8_roundtrip (v : List ℚ) (hv : v.length = 784) (dx dy : ℤ)
    (x y : ℕ) (hx : x < 28) (hy : y < 28) :
    (shift (shift v dx dy) (-dx) (-dy)).getD (y * 28 + x) 0 =
      if 0 ≤ (x:ℤ) - dx ∧ (x:ℤ) - dx < 28 ∧
          0 ≤ (y:ℤ) - dy ∧ (y:ℤ) - dy < 28
      then v.getD (y * 28 + x) 0 else 0 := by
  have hv1 : (shift v dx dy).length = 784 := by rw [shift_length, hv]
  rw [shift_getD_xy (shift v dx dy) hv1 (-dx) (-dy) x y hx hy]
  by_cases hcond : 0 ≤ (x:ℤ) - dx ∧ (x:ℤ) - dx < 28 ∧
      0 ≤ (y:ℤ) - dy ∧ (y:ℤ) - dy < 28
  · obtain ⟨h1, h2, h3, h4⟩ := hcond
    have hpos : 0 ≤ (x:ℤ) + -dx ∧ (x:ℤ) + -dx < 28 ∧
        0 ≤ (y:ℤ) + -dy ∧ (y:ℤ) + -dy < 28 :=
      ⟨by omega, by omega, by omega, by omega⟩
    rw [if_pos hpos, if_pos ⟨h1, h2, h3, h4⟩]
    set x' : ℕ := ((x:ℤ) - dx).toNat with hx'def
    set y' : ℕ := ((y:ℤ) - dy).toNat with hy'def
    have hx'z : (x' : ℤ) = (x:ℤ) - dx := Int.toNat_of_nonneg h1
    have hy'z : (y' : ℤ) = (y:ℤ) - dy := Int.toNat_of_nonneg h3
    have hx' : x' < 28 := by omega
    have hy' : y' < 28 := by omega
    have hidx : ((((y:ℤ) + -dy) * 28 + ((x:ℤ) + -dx))).toNat =
        y' * 28 + x' := by omega
    rw [hidx, shift_getD_xy v hv dx dy x' y' hx' hy',
      if_pos ⟨by omega, by omega, by omega, by omega⟩]
    congr 1
    omega
  · have hneg : ¬(0 ≤ (x:ℤ) + -dx ∧ (x:ℤ) + -dx < 28 ∧
        0 ≤ (y:ℤ) + -dy ∧ (y:ℤ) + -dy < 28) := by
      intro hc
      exact hcond ⟨by omega, by omega, by omega, by omega⟩
    rw [if_neg hneg, if_neg hcond]

/-- C8 witness: the round-trip identity at a concrete interior cell. -/
theorem C8_witness :
    (shift (shift (List.replicate 784 (1/2:ℚ)) 1 0) (-1) 0).getD
        (5 * 28 + 5) 0 =
      if 0 ≤ (5:ℤ) - 1 ∧ (5:ℤ) - 1 < 28 ∧ 0 ≤ (5:ℤ) - 0 ∧ (5:ℤ) - 0 < 28
      then (List.replicate 784 (1/2:ℚ)).getD (5 * 28 + 5) 0 else 0 :=
  C8_roundtrip (List.replicate 784 (1/2)) (List.length_replicate 784 _)
    1 0 5 5 (by norm_num) (by norm_num)

/-- With a source dimension of at least 28, consecutive floor-division
cell boundaries are at least one pixel apart. -/
theorem cellStart_lt (cs d : ℕ) (h : 28 ≤ cs) :
    d * cs / 28 + 1 ≤ (d + 1) * cs / 28 := by
  have h1 : (d + 1) * cs = d * cs + cs := by ring
  calc d * cs / 28 + 1 = (d * cs + 28) / 28 :=
        (Nat.add_div_right _ (by norm_num)).symm
    _ ≤ (d * cs + cs) / 28 := Nat.div_le_div_right (by omega)
    _ = (d + 1) * cs / 28 := by rw [← h1]

/-- Every cell of a ≥ 28-pixel source contains at least one pixel. -/
theorem cellCount_pos (cs x y : ℕ) (h : 28 ≤ cs) : 0 < cellCount cs x y := by
  unfold cellCount
  have hx := cellStart_lt cs x h
  have hy := cellStart_lt cs y h
  exact Nat.mul_pos (by omega) (by omega)

/-- A cell sum of nonnegative bytes is nonnegative. -/
theorem cellSum_nonneg (data : ℕ → ℚ) (cs x y : ℕ)
    (hdata : ∀ i, 0 ≤ data i) : 0 ≤ cellSum data cs x y := by
  unfold cellSum
  refine List.sum_nonneg ?_
  intro s hs
  rw [List.mem_map] at hs
  obtain ⟨py, -, rfl⟩ := hs
  refine List.sum_nonneg ?_
  intro t ht
  rw [List.mem_map] at ht
  obtain ⟨px, -, rfl⟩ := ht
  exact hdata _

/-- A cell sum of bytes bounded by 255 is at most `255 * count`. -/
theorem cellSum_le (data : ℕ → ℚ) (cs x y : ℕ)
    (hdata : ∀ i, data i ≤ 255) :
    cellSum data cs x y ≤ 255 * (cellCount cs x y : ℚ) := by
  unfold cellSum cellCount
  set w := (x + 1) * cs / 28 - x * cs / 28 with hw
  set h := (y + 1) * cs / 28 - y * cs / 28 with hh
  have hrow : ∀ s ∈ (List.range' (y * cs / 28) h).map (fun py =>
      ((List.range' (x * cs / 28) w).map fun px =>
        data ((py * cs + px) * 4)).sum), s ≤ 255 * (w : ℚ) := by
    intro s hs
    rw [List.mem_map] at hs
    obtain ⟨py, -, rfl⟩ := hs
    have := List.sum_le_card_nsmul
      ((List.range' (x * cs / 28) w).map fun px => data ((py * cs + px) * 4))
      255 (by
        intro t ht
        rw [List.mem_map] at ht
        obtain ⟨px, -, rfl⟩ := ht
        exact hdata _)
    rw [List.length_map, List.length_range', nsmul_eq_mul] at this
    linarith
  have := List.sum_le_card_nsmul _ _ hrow
  rw [List.length_map, List.length_range', nsmul_eq_mul] at this
  calc ((List.range' (y * cs / 28) h).map fun py =>
        ((List.range' (x * cs / 28) w).map fun px =>
          data ((py * cs + px) * 4)).sum).sum
      ≤ (h : ℚ) * (255 * w) := this
    _ = 255 * ((w * h : ℕ) : ℚ) := by push_cast; ring

set_option maxRecDepth 10000 in
/-- C9 counterexample: a valid 1×1 bitmap (positive dimensions) makes
every grid cell empty (`floor(1/28) = 0` pixels per cell), so the
source's `sum / count` computes `0 / 0 = NaN` (modelled `none`): the
first output element is not a value in [0, 1]. -/
theorem C9_counterexample :
    (getImageData (fun _ => 0) 1).length = 784 ∧
    (getImageData (fun _ => 0) 1).getD 0 (some 0) = none := by
  constructor
  · rfl
  · rfl

/-- C9 amended: for every square bitmap of dimension at least 28 with
byte values in [0, 255], the normalizer's output has length exactly 784
and every element is defined (no `NaN`) and lies in [0, 1], each being
the average of the red-channel bytes over its floor-bounded grid cell
divided by 255.  (For positive dimensions below 28 some cells are empty
and the corresponding elements are `NaN`, as the counterexample
shows.) -/
theorem C9_normalize (data : ℕ → ℚ) (canvasSize : ℕ)
    (hcs : 28 ≤ canvasSize)
    (hdata : ∀ i, 0 ≤ data i ∧ data i ≤ 255) :
    (getImageData data canvasSize).length = 784 ∧
    (∀ n, n < 784 →
      (getImageData data canvasSize).getD n none =
        some (cellSum data canvasSize (n % 28) (n / 28) /
          (cellCount canvasSize (n % 28) (n / 28) : ℚ) / 255) ∧
      ∃ q, (getImageData data canvasSize).getD n none = some q ∧
        0 ≤ q ∧ q ≤ 1) := by
  have hlen : (getImageData data canvasSize).length = 784 := by
    unfold getImageData
    rw [List.length_map, List.length_range]
  refine ⟨hlen, ?_⟩
  intro n hn
  have hcount := cellCount_pos canvasSize (n % 28) (n / 28) hcs
  have hel : (getImageData data canvasSize).getD n none =
      some (cellSum data canvasSize (n % 28) (n / 28) /
        (cellCount canvasSize (n % 28) (n / 28) : ℚ) / 255) := by
    unfold getImageData
    rw [getD_map_range _ _ _ _ (show n < 28 * 28 by omega)]
    simp only
    rw [if_neg (by omega)]
  refine ⟨hel, ?_⟩
  have hcpos : (0:ℚ) < (cellCount canvasSize (n % 28) (n / 28) : ℚ) := by
    exact_mod_cast hcount
  refine ⟨_, hel, ?_, ?_⟩
  · exact div_nonneg (div_nonneg
      (cellSum_nonneg data canvasSize _ _ fun i => (hdata i).1)
      (le_of_lt hcpos)) (by norm_num)
  · have hsum := cellSum_le data canvasSize (n % 28) (n / 28)
      fun i => (hdata i).2
    rw [div_le_one (by norm_num), div_le_iff₀ hcpos]
    linarith

/-- C9 witness: the 28×28 all-zero bitmap. -/
theorem C9_witness :
    (getImageData (fun _ => 0) 28).length = 784 ∧
    (∀ n, n < 784 →
      (getImageData (fun _ => 0) 28).getD n none =
        some (cellSum (fun _ => 0) 28 (n % 28) (n / 28) /
          (cellCount 28 (n % 28) (n / 28) : ℚ) / 255) ∧
      ∃ q, (getImageData (fun _ => 0) 28).getD n none = some q ∧
        0 ≤ q ∧ q ≤ 1) :=
  C9_normalize (fun _ => 0) 28 (le_refl 28) (fun _ => by norm_num)

end NeuroDraw
